import Mathlib

/-!
Shallow embedding of the `bbow` crate (`src/lib.rs`): a "big bag of words"
mapping normalized words to occurrence counts, stored in a `BTreeMap` keyed
by string content.

The Rust code delegates character classification to the standard library
(`char::is_alphabetic`, `char::is_uppercase`, `char::is_whitespace`,
`str::to_lowercase`).  Those tables are not part of this repository, so the
embedding is parametric in a `CharSpec` bundling them; every theorem below
quantifies over the `CharSpec`, hence holds for the real Unicode tables.
A word / text is a `List Char` (Rust `&str` as a sequence of code points);
the `BTreeMap` is an association list kept strictly sorted by key, which is
exactly the content a `BTreeMap` iterates in order.
-/

/-- The character classification tables supplied by the Rust standard
library: `char::is_alphabetic`, `char::is_uppercase`, `char::is_whitespace`
and `str::to_lowercase` (string-level, since Rust lowercasing may expand a
code point to several). -/
structure CharSpec where
  isAlphabetic : Char → Bool
  isUppercase : Char → Bool
  isWhitespace : Char → Bool
  lowerString : List Char → List Char

/-- Lexicographic comparison of words by code point: the order `&str`
(and hence `Cow<str>`) has in Rust, which is what `BTreeMap` sorts by. -/
def ltw : List Char → List Char → Bool
  | _, [] => false
  | [], _ :: _ => true
  | a :: as_, b :: bs => if a < b then true else if b < a then false else ltw as_ bs

/-- Rust `fn is_word(word: &str) -> bool`:
`!word.is_empty() && word.chars().all(|c| c.is_alphabetic())`. -/
def is_word (M : CharSpec) (w : List Char) : Bool :=
  !w.isEmpty && w.all M.isAlphabetic

/-- Rust `fn has_uppercase(word: &str) -> bool`:
`word.chars().any(char::is_uppercase)`. -/
def has_uppercase (M : CharSpec) (w : List Char) : Bool :=
  w.any M.isUppercase

/-- Helper for `str::split_whitespace`: `acc` is the current fragment,
reversed; whitespace flushes it, other characters extend it. -/
def splitWSGo (p : Char → Bool) (acc : List Char) : List Char → List (List Char)
  | [] => if acc.isEmpty then [] else [acc.reverse]
  | c :: cs =>
    if p c then
      if acc.isEmpty then splitWSGo p [] cs
      else acc.reverse :: splitWSGo p [] cs
    else splitWSGo p (c :: acc) cs

/-- Rust `str::split_whitespace`: the maximal non-whitespace runs of the text,
in order; no empty fragments. -/
def splitWS (p : Char → Bool) (t : List Char) : List (List Char) :=
  splitWSGo p [] t

/-- Rust `word.trim_matches(|c: char| !c.is_alphabetic())`: drop non-alphabetic
characters from the front, then from the back. -/
def trimNonAlpha (M : CharSpec) (w : List Char) : List Char :=
  (((w.dropWhile fun c => !M.isAlphabetic c).reverse.dropWhile
      fun c => !M.isAlphabetic c).reverse)

/-- The `Cow` choice in `extend_from_text`: lowercase the word iff it has
an uppercase character (`Cow::Owned(word.to_lowercase())`), else keep it
as is (`Cow::Borrowed(word)`).  Either way the key content stored. -/
def normalizeWord (M : CharSpec) (w : List Char) : List Char :=
  if has_uppercase M w then M.lowerString w else w

/-- Rust `Bbow(BTreeMap<Cow<str>, usize>)`, represented by its ordered
content: the key/value pairs in strictly ascending key order. -/
abbrev Bbow : Type := List (List Char × Nat)

/-- Rust `*self.0.entry(word).or_insert(0) += 1` on the ordered content: insert
the key with count 1 if absent, else increment its count. -/
def bumpWord : Bbow → List Char → Bbow
  | [], w => [(w, 1)]
  | (k, n) :: rest, w =>
    if ltw w k then (w, 1) :: (k, n) :: rest
    else if w = k then (k, n + 1) :: rest
    else (k, n) :: bumpWord rest w

/-- One iteration of the `for word in target.split_whitespace()` loop body:
trim, test `is_word`, normalize case, bump the count. -/
def processFragment (M : CharSpec) (b : Bbow) (frag : List Char) : Bbow :=
  let w := trimNonAlpha M frag
  if is_word M w then bumpWord b (normalizeWord M w) else b

/-- Rust `pub fn extend_from_text(mut self, target: &str) -> Self`. -/
def extend_from_text (M : CharSpec) (b : Bbow) (target : List Char) : Bbow :=
  (splitWS M.isWhitespace target).foldl (processFragment M) b

/-- Rust `BTreeMap::get(keyword).cloned().unwrap_or(0)` on the content list. -/
def lookupW : Bbow → List Char → Nat
  | [], _ => 0
  | (k, n) :: rest, w => if w = k then n else lookupW rest w

/-- Rust `pub fn match_count(&self, keyword: &str) -> usize`. -/
def match_count (M : CharSpec) (b : Bbow) (keyword : List Char) : Nat :=
  if is_word M keyword then lookupW b keyword else 0

namespace Bbow

/-- Rust `pub fn new() -> Self`: the empty bag. -/
def new : Bbow := []

/-- Rust `pub fn words(&self) -> impl Iterator<Item = &str>`:
`self.0.keys()`, in the map's ascending key order. -/
def words (b : Bbow) : List (List Char) := b.map Prod.fst

/-- Rust `pub fn count(&self) -> usize`: `self.0.values().sum()`. -/
def count (b : Bbow) : Nat := (b.map Prod.snd).sum

/-- Rust `pub fn len(&self) -> usize`: `self.0.len()`. -/
def len (b : Bbow) : Nat := b.length

/-- Rust `pub fn is_empty(&self) -> bool`: `self.0.is_empty()`. -/
def is_empty (b : Bbow) : Bool := b.isEmpty

end Bbow

/-- A bag reachable from `Bbow::new()` by a sequence of
`extend_from_text` calls, one per text in `ts`. -/
def buildBbow (M : CharSpec) (ts : List (List Char)) : Bbow :=
  ts.foldl (extend_from_text M) Bbow.new

/-- The key invariant of the `BTreeMap` content: strictly ascending keys. -/
abbrev SortedB (b : Bbow) : Prop :=
  b.Pairwise fun p q => ltw p.1 q.1 = true

/-- A concrete instantiation of the character tables: the ASCII fragment
of the Unicode tables, for evaluating the model on concrete inputs. -/
def asciiAlpha (c : Char) : Bool :=
  ('a' ≤ c && c ≤ 'z') || ('A' ≤ c && c ≤ 'Z')

def asciiUpper (c : Char) : Bool :=
  'A' ≤ c && c ≤ 'Z'

def asciiLower (c : Char) : Char :=
  if asciiUpper c then Char.ofNat (c.toNat + 32) else c

def asciiWhite (c : Char) : Bool :=
  c = ' ' || c = '\t' || c = '\n' || c = '\r'

def ascii : CharSpec :=
  ⟨asciiAlpha, asciiUpper, asciiWhite, fun w => w.map asciiLower⟩

/-- A second instantiation of the tables: ascii letters, no character
classified uppercase, lowercasing as the identity.  Used to discharge the
table hypotheses of theorems at a concrete instance. -/
def asciiId : CharSpec :=
  ⟨asciiAlpha, fun _ => false, asciiWhite, fun w => w⟩

/-- The normalized words a single `extend_from_text` call folds into the
map, in text order: split on whitespace, trim, keep the valid words,
normalize case. -/
def textWords (M : CharSpec) (t : List Char) : List (List Char) :=
  (((splitWS M.isWhitespace t).map (trimNonAlpha M)).filter (is_word M)).map
    (normalizeWord M)

theorem ltw_nil_right (a : List Char) : ltw a [] = false := by
  cases a <;> rfl

theorem ltw_irrefl (a : List Char) : ltw a a = false := by
  induction a with
  | nil => rfl
  | cons c cs ih => simp [ltw, lt_irrefl, ih]

theorem ltw_asymm : ∀ (a b : List Char), ltw a b = true → ltw b a = false
  | [], [] => by simp [ltw]
  | [], _ :: _ => by simp [ltw]
  | _ :: _, [] => by simp [ltw]
  | a :: as_, b :: bs => by
    intro h
    rcases lt_trichotomy a b with hab | hab | hab
    · simp [ltw, hab, lt_asymm hab]
    · subst hab
      simp only [ltw, lt_irrefl, if_false] at h ⊢
      exact ltw_asymm as_ bs h
    · simp [ltw, hab, lt_asymm hab] at h

theorem ltw_conn : ∀ (a b : List Char), ltw a b = false → ltw b a = false → a = b
  | [], [] => fun _ _ => rfl
  | [], _ :: _ => by simp [ltw]
  | _ :: _, [] => by simp [ltw]
  | a :: as_, b :: bs => by
    intro h1 h2
    rcases lt_trichotomy a b with hab | hab | hab
    · simp [ltw, hab] at h1
    · subst hab
      simp only [ltw, lt_irrefl, if_false] at h1 h2
      rw [ltw_conn as_ bs h1 h2]
    · simp [ltw, hab] at h2

theorem ltw_trans : ∀ (a b c : List Char),
    ltw a b = true → ltw b c = true → ltw a c = true
  | a, b, [] => by intro _ h2; rw [ltw_nil_right] at h2; exact absurd h2 (by simp)
  | a, [], _ :: _ => by intro h1 _; rw [ltw_nil_right] at h1; exact absurd h1 (by simp)
  | [], _ :: _, _ :: _ => by intro _ _; rfl
  | a :: as_, b :: bs, c :: cs => by
    intro h1 h2
    rcases lt_trichotomy a b with hab | hab | hab
    · rcases lt_trichotomy b c with hbc | hbc | hbc
      · simp [ltw, lt_trans hab hbc]
      · subst hbc; simp [ltw, hab]
      · simp [ltw, hbc, lt_asymm hbc] at h2
    · subst hab
      simp only [ltw, lt_irrefl, if_false] at h1
      rcases lt_trichotomy a c with hac | hac | hac
      · simp [ltw, hac]
      · subst hac
        simp only [ltw, lt_irrefl, if_false] at h2 ⊢
        exact ltw_trans as_ bs cs h1 h2
      · simp [ltw, hac, lt_asymm hac] at h2
    · simp [ltw, hab, lt_asymm hab] at h1

theorem ltw_ne {a b : List Char} (h : ltw a b = true) : a ≠ b := by
  rintro rfl
  rw [ltw_irrefl] at h
  exact absurd h (by simp)

theorem ltw_trich (a b : List Char) :
    (ltw a b = true ∧ ltw b a = false ∧ a ≠ b) ∨
    (ltw a b = false ∧ ltw b a = true ∧ a ≠ b) ∨
    (ltw a b = false ∧ ltw b a = false ∧ a = b) := by
  cases h1 : ltw a b
  · cases h2 : ltw b a
    · exact Or.inr (Or.inr ⟨rfl, rfl, ltw_conn a b h1 h2⟩)
    · exact Or.inr (Or.inl ⟨rfl, rfl, fun e => ltw_ne h2 e.symm⟩)
  · exact Or.inl ⟨rfl, ltw_asymm a b h1, ltw_ne h1⟩

theorem mem_words_bump (b : Bbow) (w x : List Char) :
    x ∈ Bbow.words (bumpWord b w) ↔ x = w ∨ x ∈ Bbow.words b := by
  induction b with
  | nil => simp [bumpWord, Bbow.words]
  | cons p rest ih =>
    obtain ⟨k, n⟩ := p
    by_cases h1 : ltw w k = true
    · simp [bumpWord, h1, Bbow.words]
    · by_cases h2 : w = k
      · subst h2
        simp [bumpWord, h1, Bbow.words]
      · simp [bumpWord, h1, h2, Bbow.words] at ih ⊢
        rw [ih]
        tauto

theorem mem_bump_key {b : Bbow} {w : List Char} {q : List Char × Nat}
    (h : q ∈ bumpWord b w) : q.1 = w ∨ q.1 ∈ Bbow.words b := by
  have hq : q.1 ∈ Bbow.words (bumpWord b w) := List.mem_map_of_mem Prod.fst h
  exact (mem_words_bump b w q.1).mp hq

theorem sortedB_bump {b : Bbow} (hs : SortedB b) (w : List Char) :
    SortedB (bumpWord b w) := by
  induction b with
  | nil => simp [bumpWord, SortedB]
  | cons p rest ih =>
    obtain ⟨k, n⟩ := p
    rw [SortedB, List.pairwise_cons] at hs
    obtain ⟨hk, hrest⟩ := hs
    by_cases h1 : ltw w k = true
    · rw [SortedB]
      simp only [bumpWord, h1, if_true]
      refine List.Pairwise.cons ?_ (List.Pairwise.cons hk hrest)
      intro q hq
      rcases List.mem_cons.mp hq with h | h
      · subst h; exact h1
      · exact ltw_trans w k q.1 h1 (hk q h)
    · by_cases h2 : w = k
      · subst h2
        rw [SortedB]
        simp only [bumpWord, h1, if_false, if_pos rfl]
        exact List.Pairwise.cons hk hrest
      · rw [SortedB]
        simp only [bumpWord, h1, if_false, if_neg h2]
        refine List.Pairwise.cons ?_ (ih hrest)
        intro q hq
        rcases mem_bump_key hq with h | h
        · subst h
          cases h3 : ltw k q.1
          · exact absurd (ltw_conn k q.1 h3 (by simpa using h1)).symm h2
          · rfl
        · simp only [Bbow.words, List.mem_map] at h
          obtain ⟨r, hr, hr1⟩ := h
          rw [← hr1]
          exact hk r hr

theorem lookupW_eq_zero {b : Bbow} {w : List Char}
    (h : ∀ x ∈ Bbow.words b, w ≠ x) : lookupW b w = 0 := by
  induction b with
  | nil => rfl
  | cons p rest ih =>
    obtain ⟨k, n⟩ := p
    have hk : w ≠ k := h k (by simp [Bbow.words])
    simp only [lookupW, if_neg hk]
    exact ih fun x hx => h x (by simp [Bbow.words] at hx ⊢; tauto)

theorem lookupW_cons (k : List Char) (n : Nat) (rest : Bbow) (w : List Char) :
    lookupW ((k, n) :: rest) w = if w = k then n else lookupW rest w := rfl

theorem bumpWord_cons (k : List Char) (n : Nat) (rest : Bbow) (w : List Char) :
    bumpWord ((k, n) :: rest) w =
      if ltw w k = true then (w, 1) :: (k, n) :: rest
      else if w = k then (k, n + 1) :: rest
      else (k, n) :: bumpWord rest w := rfl

theorem lookupW_bump {b : Bbow} (hs : SortedB b) (w k : List Char) :
    lookupW (bumpWord b w) k = lookupW b k + (if k = w then 1 else 0) := by
  induction b with
  | nil => simp [bumpWord, lookupW]
  | cons p rest ih =>
    obtain ⟨k0, n⟩ := p
    rw [SortedB, List.pairwise_cons] at hs
    obtain ⟨hk0, hrest⟩ := hs
    rw [bumpWord_cons]
    by_cases h1 : ltw w k0 = true
    · rw [if_pos h1, lookupW_cons]
      by_cases hkw : k = w
      · subst hkw
        have hz : lookupW ((k0, n) :: rest) k = 0 := by
          refine lookupW_eq_zero fun x hx => ?_
          simp only [Bbow.words, List.map_cons, List.mem_cons] at hx
          rcases hx with h | h
          · subst h; exact ltw_ne h1
          · simp only [List.mem_map] at h
            obtain ⟨r, hr, hr1⟩ := h
            exact ltw_ne (ltw_trans k k0 x h1 (hr1 ▸ hk0 r hr))
        simp [hz]
      · simp [hkw]
    · rw [if_neg h1]
      by_cases h2 : w = k0
      · subst h2
        rw [if_pos rfl, lookupW_cons, lookupW_cons]
        by_cases hkw : k = w
        · subst hkw; simp
        · simp [hkw]
      · rw [if_neg h2, lookupW_cons, lookupW_cons]
        by_cases hk : k = k0
        · subst hk
          have hne : ¬ k = w := fun e => h2 e.symm
          simp [hne]
        · simp only [if_neg hk]
          exact ih hrest

theorem bump_comm_lt (b : Bbow) (w1 w2 : List Char) (h12 : ltw w1 w2 = true) :
    bumpWord (bumpWord b w1) w2 = bumpWord (bumpWord b w2) w1 := by
  have h21 : ltw w2 w1 = false := ltw_asymm w1 w2 h12
  have hne : w1 ≠ w2 := ltw_ne h12
  have hne' : w2 ≠ w1 := hne.symm
  induction b with
  | nil => simp [bumpWord, bumpWord_cons, h12, h21, hne, hne']
  | cons p rest ih =>
    obtain ⟨k, n⟩ := p
    rcases ltw_trich w1 k with ⟨ha, hb, hc⟩ | ⟨ha, hb, hc⟩ | ⟨ha, hb, hc⟩
    · rcases ltw_trich w2 k with ⟨ha2, hb2, hc2⟩ | ⟨ha2, hb2, hc2⟩ | ⟨ha2, hb2, hc2⟩
      · simp [bumpWord_cons, ha, ha2, h12, h21, hne']
      · simp [bumpWord_cons, ha, ha2, hc2, h12, h21, hne']
      · subst hc2
        simp [bumpWord_cons, ha, hb, ltw_irrefl, Ne.symm hc]
    · have hkw2 : ltw k w2 = true := ltw_trans k w1 w2 hb h12
      have ha2 : ltw w2 k = false := ltw_asymm k w2 hkw2
      have hc2 : w2 ≠ k := (ltw_ne hkw2).symm
      simp [bumpWord_cons, ha, hc, ha2, hc2, ih]
    · subst hc
      simp [bumpWord_cons, ltw_irrefl, h21, hne']

theorem bump_comm (b : Bbow) (w1 w2 : List Char) :
    bumpWord (bumpWord b w1) w2 = bumpWord (bumpWord b w2) w1 := by
  rcases ltw_trich w1 w2 with ⟨h, _, _⟩ | ⟨_, h, _⟩ | ⟨_, _, h⟩
  · exact bump_comm_lt b w1 w2 h
  · exact (bump_comm_lt b w2 w1 h).symm
  · subst h; rfl

theorem count_bump (b : Bbow) (w : List Char) :
    Bbow.count (bumpWord b w) = Bbow.count b + 1 := by
  induction b with
  | nil => simp [bumpWord, Bbow.count]
  | cons p rest ih =>
    obtain ⟨k, n⟩ := p
    rw [bumpWord_cons]
    by_cases h1 : ltw w k = true
    · rw [if_pos h1]
      simp only [Bbow.count, List.map_cons, List.sum_cons]
      omega
    · rw [if_neg h1]
      by_cases h2 : w = k
      · rw [if_pos h2]
        simp only [Bbow.count, List.map_cons, List.sum_cons]
        omega
      · rw [if_neg h2]
        simp only [Bbow.count, List.map_cons, List.sum_cons] at ih ⊢
        omega

theorem len_bump (b : Bbow) (w : List Char) :
    Bbow.len b ≤ Bbow.len (bumpWord b w) := by
  induction b with
  | nil => simp [bumpWord, Bbow.len]
  | cons p rest ih =>
    obtain ⟨k, n⟩ := p
    rw [bumpWord_cons]
    by_cases h1 : ltw w k = true
    · rw [if_pos h1]
      simp only [Bbow.len, List.length_cons]
      omega
    · rw [if_neg h1]
      by_cases h2 : w = k
      · rw [if_pos h2]
        simp only [Bbow.len, List.length_cons]
        omega
      · rw [if_neg h2]
        simp only [Bbow.len, List.length_cons] at ih ⊢
        omega

theorem pos_bump {b : Bbow} (h : ∀ q ∈ b, 1 ≤ q.2) (w : List Char) :
    ∀ q ∈ bumpWord b w, 1 ≤ q.2 := by
  induction b with
  | nil =>
    intro q hq
    simp only [bumpWord, List.mem_singleton] at hq
    subst hq
    exact le_refl 1
  | cons p rest ih =>
    obtain ⟨k, n⟩ := p
    intro q hq
    rw [bumpWord_cons] at hq
    by_cases h1 : ltw w k = true
    · rw [if_pos h1] at hq
      rcases List.mem_cons.mp hq with h' | h'
      · subst h'; exact le_refl 1
      · exact h q h'
    · rw [if_neg h1] at hq
      by_cases h2 : w = k
      · rw [if_pos h2] at hq
        rcases List.mem_cons.mp hq with h' | h'
        · subst h'; omega
        · exact h q (List.mem_cons_of_mem _ h')
      · rw [if_neg h2] at hq
        rcases List.mem_cons.mp hq with h' | h'
        · subst h'; exact h (k, n) (List.mem_cons_self _ _)
        · exact ih (fun r hr => h r (List.mem_cons_of_mem _ hr)) q h'

theorem extend_eq_foldBump (M : CharSpec) (b : Bbow) (t : List Char) :
    extend_from_text M b t = (textWords M t).foldl bumpWord b := by
  unfold extend_from_text textWords
  generalize splitWS M.isWhitespace t = frags
  induction frags generalizing b with
  | nil => rfl
  | cons f fs ih =>
    by_cases h : is_word M (trimNonAlpha M f) = true
    · simp [processFragment, h, ih]
    · simp [processFragment, h, ih]

theorem sortedB_foldBump {b : Bbow} (hs : SortedB b) (ws : List (List Char)) :
    SortedB (ws.foldl bumpWord b) := by
  induction ws generalizing b with
  | nil => exact hs
  | cons w ws ih => exact ih (sortedB_bump hs w)

theorem lookupW_foldBump {b : Bbow} (hs : SortedB b) (ws : List (List Char))
    (k : List Char) :
    lookupW (ws.foldl bumpWord b) k = lookupW b k + ws.count k := by
  induction ws generalizing b with
  | nil => simp
  | cons w ws ih =>
    rw [List.foldl_cons, ih (sortedB_bump hs w), lookupW_bump hs w k,
      List.count_cons]
    by_cases h : k = w
    · subst h; simp; omega
    · have h' : ¬ w = k := fun e => h e.symm
      simp [h, h']

theorem mem_words_foldBump (b : Bbow) (ws : List (List Char)) (x : List Char) :
    x ∈ Bbow.words (ws.foldl bumpWord b) ↔ x ∈ Bbow.words b ∨ x ∈ ws := by
  induction ws generalizing b with
  | nil => simp
  | cons w ws ih =>
    rw [List.foldl_cons, ih, mem_words_bump]
    simp only [List.mem_cons]
    tauto

theorem count_foldBump (b : Bbow) (ws : List (List Char)) :
    Bbow.count (ws.foldl bumpWord b) = Bbow.count b + ws.length := by
  induction ws generalizing b with
  | nil => simp
  | cons w ws ih =>
    rw [List.foldl_cons, ih, count_bump]
    simp only [List.length_cons]
    omega

theorem len_foldBump (b : Bbow) (ws : List (List Char)) :
    Bbow.len b ≤ Bbow.len (ws.foldl bumpWord b) := by
  induction ws generalizing b with
  | nil => exact le_refl _
  | cons w ws ih => exact le_trans (len_bump b w) (ih (bumpWord b w))

theorem pos_foldBump {b : Bbow} (h : ∀ q ∈ b, 1 ≤ q.2) (ws : List (List Char)) :
    ∀ q ∈ ws.foldl bumpWord b, 1 ≤ q.2 := by
  induction ws generalizing b with
  | nil => exact h
  | cons w ws ih => exact ih (pos_bump h w)

theorem splitWSGo_append (p : Char → Bool) (sep : Char) (hsep : p sep = true)
    (b : List Char) :
    ∀ (a : List Char) (acc : List Char),
      splitWSGo p acc (a ++ sep :: b) = splitWSGo p acc a ++ splitWSGo p [] b := by
  intro a
  induction a with
  | nil =>
    intro acc
    by_cases hacc : acc.isEmpty
    · simp [splitWSGo, hsep, hacc]
    · simp [splitWSGo, hsep, hacc]
  | cons c cs ih =>
    intro acc
    by_cases hc : p c = true
    · by_cases hacc : acc.isEmpty
      · simp [splitWSGo, hc, hacc, ih]
      · simp [splitWSGo, hc, hacc, ih]
    · simp [splitWSGo, hc, ih]

theorem splitWS_append (p : Char → Bool) (sep : Char) (t1 t2 : List Char)
    (hsep : p sep = true) :
    splitWS p (t1 ++ sep :: t2) = splitWS p t1 ++ splitWS p t2 :=
  splitWSGo_append p sep hsep t2 t1 []

theorem textWords_append (M : CharSpec) (sep : Char) (t1 t2 : List Char)
    (hsep : M.isWhitespace sep = true) :
    textWords M (t1 ++ sep :: t2) = textWords M t1 ++ textWords M t2 := by
  unfold textWords
  rw [splitWS_append M.isWhitespace sep t1 t2 hsep, List.map_append,
    List.filter_append, List.map_append]

theorem foldBump_perm {ws1 ws2 : List (List Char)} (h : List.Perm ws1 ws2)
    (b : Bbow) : ws1.foldl bumpWord b = ws2.foldl bumpWord b :=
  h.foldl_eq' (fun x _ y _ z => bump_comm z x y) b

theorem build_invariant (P : Bbow → Prop) (M : CharSpec) (h0 : P Bbow.new)
    (hstep : ∀ b t, P b → P (extend_from_text M b t)) (ts : List (List Char)) :
    P (buildBbow M ts) := by
  suffices h : ∀ b, P b → P (ts.foldl (extend_from_text M) b) from h Bbow.new h0
  induction ts with
  | nil => exact fun b hb => hb
  | cons t ts ih => exact fun b hb => ih _ (hstep b t hb)

theorem sortedB_build (M : CharSpec) (ts : List (List Char)) :
    SortedB (buildBbow M ts) :=
  build_invariant SortedB M (List.Pairwise.nil)
    (fun b t hb => by rw [extend_eq_foldBump]; exact sortedB_foldBump hb _) ts

theorem textWords_valid (M : CharSpec)
    (hlower : ∀ w, is_word M w = true → is_word M (M.lowerString w) = true)
    (t : List Char) : ∀ w ∈ textWords M t, is_word M w = true := by
  intro w hw
  unfold textWords at hw
  rcases List.mem_map.mp hw with ⟨u, hu, rfl⟩
  have hu' : is_word M u = true := List.of_mem_filter hu
  rw [normalizeWord]
  by_cases h : has_uppercase M u = true
  · rw [if_pos h]; exact hlower u hu'
  · rw [if_neg h]; exact hu'

theorem keysValid_build (M : CharSpec)
    (hlower : ∀ w, is_word M w = true → is_word M (M.lowerString w) = true)
    (ts : List (List Char)) :
    ∀ k ∈ Bbow.words (buildBbow M ts), is_word M k = true := by
  refine build_invariant (fun b => ∀ k ∈ Bbow.words b, is_word M k = true) M ?_ ?_ ts
  · intro k hk; simp [Bbow.new, Bbow.words] at hk
  · intro b t hb k hk
    rw [extend_eq_foldBump] at hk
    rcases (mem_words_foldBump b _ k).mp hk with h | h
    · exact hb k h
    · exact textWords_valid M hlower t k h

theorem lookupW_mem {b : Bbow} (hs : SortedB b) {k : List Char} {n : Nat}
    (h : (k, n) ∈ b) : lookupW b k = n := by
  induction b with
  | nil => cases h
  | cons p rest ih =>
    obtain ⟨k0, m⟩ := p
    rw [SortedB, List.pairwise_cons] at hs
    obtain ⟨hk0, hrest⟩ := hs
    rcases List.mem_cons.mp h with h' | h'
    · obtain ⟨e1, e2⟩ := Prod.mk.injEq .. ▸ h'
      subst e1; subst e2
      rw [lookupW_cons, if_pos rfl]
    · have hne : k ≠ k0 := by
        have := hk0 (k, n) h'
        exact fun e => ltw_ne this (by rw [e])
      rw [lookupW_cons, if_neg hne]
      exact ih hrest h'

theorem count_eq_sum {M : CharSpec} : ∀ {b : Bbow}, SortedB b →
    (∀ k ∈ Bbow.words b, is_word M k = true) →
    Bbow.count b = ((Bbow.words b).map (match_count M b)).sum := by
  intro b
  induction b with
  | nil => intro _ _; rfl
  | cons p rest ih =>
    obtain ⟨k, n⟩ := p
    intro hs hv
    rw [SortedB, List.pairwise_cons] at hs
    obtain ⟨hk, hrest⟩ := hs
    have hvk : is_word M k = true := hv k (by simp [Bbow.words])
    have h1 : match_count M ((k, n) :: rest) k = n := by
      rw [match_count, if_pos hvk, lookupW_cons, if_pos rfl]
    have h2 : (Bbow.words rest).map (match_count M ((k, n) :: rest)) =
        (Bbow.words rest).map (match_count M rest) := by
      refine List.map_congr_left fun x hx => ?_
      have hne : ¬ x = k := by
        obtain ⟨r, hr, hr1⟩ := List.mem_map.mp hx
        have hlt := hk r hr
        rw [hr1] at hlt
        exact fun e => ltw_ne hlt (by rw [e])
      rw [match_count, match_count, lookupW_cons, if_neg hne]
    have h3 := ih hrest fun x hx => hv x (by simp [Bbow.words] at hx ⊢; tauto)
    simp only [Bbow.words, List.map_cons, List.sum_cons, Bbow.count] at h2 h3 ⊢
    rw [h1, h2]
    omega

theorem trim_decomp (M : CharSpec) (frag : List Char) :
    ∃ pre suf, frag = pre ++ trimNonAlpha M frag ++ suf ∧
      (∀ c ∈ pre, M.isAlphabetic c = false) ∧
      (∀ c ∈ suf, M.isAlphabetic c = false) := by
  refine ⟨frag.takeWhile (fun c => !M.isAlphabetic c),
    ((frag.dropWhile (fun c => !M.isAlphabetic c)).reverse.takeWhile
      (fun c => !M.isAlphabetic c)).reverse, ?_, ?_, ?_⟩
  · have hA : frag =
        frag.takeWhile (fun c => !M.isAlphabetic c) ++
          frag.dropWhile (fun c => !M.isAlphabetic c) :=
      (List.takeWhile_append_dropWhile (fun c => !M.isAlphabetic c) frag).symm
    have hB : frag.dropWhile (fun c => !M.isAlphabetic c) =
        trimNonAlpha M frag ++
          ((frag.dropWhile (fun c => !M.isAlphabetic c)).reverse.takeWhile
            (fun c => !M.isAlphabetic c)).reverse := by
      have h' := congrArg List.reverse
        (List.takeWhile_append_dropWhile (fun c => !M.isAlphabetic c)
          (frag.dropWhile fun c => !M.isAlphabetic c).reverse)
      rw [List.reverse_append, List.reverse_reverse] at h'
      exact h'.symm
    conv_lhs => rw [hA, hB]
    rw [List.append_assoc]
  · intro c hc
    have := List.mem_takeWhile_imp hc
    simpa using this
  · intro c hc
    have := List.mem_takeWhile_imp (List.mem_reverse.mp hc)
    simpa using this

theorem ltw_iff_lex : ∀ (a b : List Char), ltw a b = true ↔ List.Lex (· < ·) a b
  | [], [] => ⟨fun h => by simp [ltw] at h, fun h => by cases h⟩
  | [], _ :: _ => ⟨fun _ => List.Lex.nil, fun _ => rfl⟩
  | _ :: _, [] =>
    ⟨fun h => by rw [ltw_nil_right] at h; exact absurd h (by simp),
     fun h => by cases h⟩
  | a :: as_, b :: bs => by
    rcases lt_trichotomy a b with h | h | h
    · constructor
      · intro _; exact List.Lex.rel h
      · intro _; simp [ltw, h]
    · subst h
      constructor
      · intro hl
        simp only [ltw, lt_irrefl, if_false] at hl
        exact List.Lex.cons ((ltw_iff_lex as_ bs).mp hl)
      · intro hl
        simp only [ltw, lt_irrefl, if_false]
        cases hl with
        | cons h' => exact (ltw_iff_lex as_ bs).mpr h'
        | rel h' => exact absurd h' (lt_irrefl a)
    · constructor
      · intro hl; simp [ltw, h, lt_asymm h] at hl
      · intro hl
        cases hl with
        | cons h' => exact absurd rfl (ne_of_gt h)
        | rel h' => exact absurd h' (lt_asymm h)

theorem sum_length_aux : ∀ (l : List Nat), (∀ v ∈ l, 1 ≤ v) →
    l.length ≤ l.sum ∧ (l.sum = l.length ↔ ∀ v ∈ l, v = 1)
  | [], _ => by simp
  | v :: l, h => by
    obtain ⟨ih1, ih2⟩ :=
      sum_length_aux l fun x hx => h x (List.mem_cons_of_mem _ hx)
    have hv := h v (List.mem_cons_self _ _)
    constructor
    · simp only [List.length_cons, List.sum_cons]; omega
    · simp only [List.length_cons, List.sum_cons, List.mem_cons]
      constructor
      · intro he
        have h1 : v = 1 := by omega
        have h2 : l.sum = l.length := by omega
        intro x hx
        rcases hx with rfl | hx
        · exact h1
        · exact ih2.mp h2 x hx
      · intro hall
        have h1 : v = 1 := hall v (Or.inl rfl)
        have h2 : l.sum = l.length := ih2.mpr fun x hx => hall x (Or.inr hx)
        omega

theorem keysLower_build (M : CharSpec)
    (hfix : ∀ w, has_uppercase M w = false → M.lowerString w = w)
    (hnoup : ∀ w, has_uppercase M (M.lowerString w) = false)
    (ts : List (List Char)) :
    ∀ k ∈ Bbow.words (buildBbow M ts),
      M.lowerString k = k ∧ has_uppercase M k = false := by
  refine build_invariant
    (fun b => ∀ k ∈ Bbow.words b,
      M.lowerString k = k ∧ has_uppercase M k = false) M ?_ ?_ ts
  · intro k hk; simp [Bbow.new, Bbow.words] at hk
  · intro b t hb k hk
    rw [extend_eq_foldBump] at hk
    rcases (mem_words_foldBump b _ k).mp hk with h | h
    · exact hb k h
    · unfold textWords at h
      rcases List.mem_map.mp h with ⟨u, _, rfl⟩
      rw [normalizeWord]
      by_cases hu : has_uppercase M u = true
      · rw [if_pos hu]
        exact ⟨hfix _ (hnoup u), hnoup u⟩
      · rw [if_neg hu]
        simp only [Bool.not_eq_true] at hu
        exact ⟨hfix u hu, hu⟩

/-- Claim C1: every bag reachable by `new()` followed by any sequence of
`extend_from_text` calls stores only keys that are non-empty and consist
entirely of alphabetic code points.  The hypothesis is the property of the
character tables that this relies on: lowercasing a valid word yields a
valid word. -/
theorem c1_keys_alphabetic (M : CharSpec)
    (hlower : ∀ w, is_word M w = true → is_word M (M.lowerString w) = true)
    (ts : List (List Char)) :
    ∀ k ∈ Bbow.words (buildBbow M ts),
      k ≠ [] ∧ ∀ c ∈ k, M.isAlphabetic c = true := by
  intro k hk
  have hv := keysValid_build M hlower ts k hk
  rw [is_word, Bool.and_eq_true] at hv
  obtain ⟨h1, h2⟩ := hv
  refine ⟨?_, fun c hc => List.all_eq_true.mp h2 c hc⟩
  intro e
  subst e
  simp at h1

theorem c1_keys_alphabetic_wit :
    ("ab".data ∈ Bbow.words (buildBbow asciiId ["ab cd".data])) ∧
    ("ab".data ≠ [] ∧ ∀ c ∈ "ab".data, asciiId.isAlphabetic c = true) :=
  ⟨by decide,
   c1_keys_alphabetic asciiId (fun _ h => h) ["ab cd".data] "ab".data (by decide)⟩

/-- Claim C2: every bag reachable by `new()` followed by any sequence of
`extend_from_text` calls stores only keys in fully lowercased form: each
key is fixed by `lowerString` and contains no uppercase code point.  The
hypotheses are the properties of the character tables this relies on: a
word with no uppercase code point is fixed by lowercasing, and lowercasing
never produces an uppercase code point. -/
theorem c2_keys_lowercased (M : CharSpec)
    (hfix : ∀ w, has_uppercase M w = false → M.lowerString w = w)
    (hnoup : ∀ w, has_uppercase M (M.lowerString w) = false)
    (ts : List (List Char)) :
    ∀ k ∈ Bbow.words (buildBbow M ts),
      M.lowerString k = k ∧ has_uppercase M k = false :=
  keysLower_build M hfix hnoup ts

theorem c2_keys_lowercased_wit :
    ("ab".data ∈ Bbow.words (buildBbow asciiId ["ab cd".data])) ∧
    (asciiId.lowerString "ab".data = "ab".data ∧
      has_uppercase asciiId "ab".data = false) :=
  ⟨by decide,
   c2_keys_lowercased asciiId (fun _ _ => rfl)
     (fun w => by simp [has_uppercase, asciiId]) ["ab cd".data]
     "ab".data (by decide)⟩

/-- Claim C3: for every bag built by a sequence of `extend_from_text`
calls, `count()` is the sum of `match_count(w)` over the distinct stored
words enumerated by `words()`, and `len()` is the number of those words.
The hypothesis is the same character-table property as in C1 (keys must be
valid words for `match_count` to report their counts). -/
theorem c3_count_sum (M : CharSpec)
    (hlower : ∀ w, is_word M w = true → is_word M (M.lowerString w) = true)
    (ts : List (List Char)) :
    Bbow.count (buildBbow M ts) =
      ((Bbow.words (buildBbow M ts)).map (match_count M (buildBbow M ts))).sum ∧
    Bbow.len (buildBbow M ts) = (Bbow.words (buildBbow M ts)).length := by
  refine ⟨count_eq_sum (sortedB_build M ts) (keysValid_build M hlower ts), ?_⟩
  simp [Bbow.len, Bbow.words]

theorem c3_count_sum_wit :
    Bbow.count (buildBbow asciiId ["b ab b".data]) =
      ((Bbow.words (buildBbow asciiId ["b ab b".data])).map
        (match_count asciiId (buildBbow asciiId ["b ab b".data]))).sum ∧
    Bbow.len (buildBbow asciiId ["b ab b".data]) =
      (Bbow.words (buildBbow asciiId ["b ab b".data])).length :=
  c3_count_sum asciiId (fun _ h => h) ["b ab b".data]

/-- Claim C4: `match_count` returns 0 on any keyword that is not a valid
word (it does not lowercase or strip the keyword); otherwise it returns
the stored count on an exact key match and 0 when the keyword is not a
stored key.  It is a pure query: the bag is not mutated (the embedding is
functional, so this is structural). -/
theorem c4_match_count_contract (M : CharSpec) (b : Bbow) (kw : List Char) :
    (is_word M kw = false → match_count M b kw = 0) ∧
    (∀ n : Nat, SortedB b → (kw, n) ∈ b → is_word M kw = true →
      match_count M b kw = n) ∧
    (kw ∉ Bbow.words b → match_count M b kw = 0) := by
  refine ⟨?_, ?_, ?_⟩
  · intro h
    rw [match_count, if_neg (by simp [h])]
  · intro n hs hmem hv
    rw [match_count, if_pos hv]
    exact lookupW_mem hs hmem
  · intro h
    rw [match_count]
    by_cases hv : is_word M kw = true
    · rw [if_pos hv]
      exact lookupW_eq_zero fun x hx => fun e => h (e ▸ hx)
    · rw [if_neg hv]

theorem c4_match_count_contract_wit :
    SortedB (buildBbow ascii ["Apple apple APPLE".data]) ∧
    ("apple".data, 3) ∈ buildBbow ascii ["Apple apple APPLE".data] ∧
    is_word ascii "apple".data = true ∧
    match_count ascii (buildBbow ascii ["Apple apple APPLE".data])
      "apple".data = 3 :=
  ⟨by decide, by decide, by decide,
   (c4_match_count_contract ascii (buildBbow ascii ["Apple apple APPLE".data])
     "apple".data).2.1 3 (by decide) (by decide) (by decide)⟩

/-- Claim C5: each whitespace-delimited fragment has only leading and
trailing non-alphabetic code points stripped; a fragment whose trimmed
candidate still contains a non-alphabetic code point is discarded whole
(never split).  Concretely, ingesting "b b b-banana b" gives
`match_count("b") = 3` and `match_count("banana") = 0`. -/
theorem c5_boundary_strip (M : CharSpec) (b : Bbow) (frag : List Char) :
    (∃ pre suf, frag = pre ++ trimNonAlpha M frag ++ suf ∧
      (∀ c ∈ pre, M.isAlphabetic c = false) ∧
      (∀ c ∈ suf, M.isAlphabetic c = false)) ∧
    ((∃ c ∈ trimNonAlpha M frag, M.isAlphabetic c = false) →
      processFragment M b frag = b) ∧
    match_count ascii (buildBbow ascii ["b b b-banana b".data]) "b".data = 3 ∧
    match_count ascii (buildBbow ascii ["b b b-banana b".data])
      "banana".data = 0 := by
  refine ⟨trim_decomp M frag, ?_, by decide, by decide⟩
  rintro ⟨c, hc, hna⟩
  have hw : is_word M (trimNonAlpha M frag) = false := by
    cases hall : (trimNonAlpha M frag).all M.isAlphabetic
    · simp [is_word, hall]
    · rw [List.all_eq_true.mp hall c hc] at hna
      exact absurd hna (by simp)
  simp [processFragment, hw]

theorem c5_boundary_strip_wit :
    (∃ c ∈ trimNonAlpha ascii "b-banana".data, ascii.isAlphabetic c = false) ∧
    processFragment ascii Bbow.new "b-banana".data = Bbow.new :=
  ⟨by decide,
   (c5_boundary_strip ascii Bbow.new "b-banana".data).2.1 (by decide)⟩

/-- Claim C6: for all texts and every starting bag, ingesting T1 then T2
equals ingesting the single text T1 ++ sep ++ T2 for a whitespace
separator sep, and equals ingesting T2 then T1 — the final mapping
(keys and counts) is identical. -/
theorem c6_order_independence (M : CharSpec) (b : Bbow) (t1 t2 : List Char)
    (sep : Char) (hsep : M.isWhitespace sep = true) :
    extend_from_text M (extend_from_text M b t1) t2 =
      extend_from_text M b (t1 ++ sep :: t2) ∧
    extend_from_text M (extend_from_text M b t1) t2 =
      extend_from_text M (extend_from_text M b t2) t1 := by
  constructor
  · simp only [extend_eq_foldBump]
    rw [textWords_append M sep t1 t2 hsep, List.foldl_append]
  · simp only [extend_eq_foldBump]
    rw [← List.foldl_append, ← List.foldl_append]
    exact foldBump_perm List.perm_append_comm b

theorem c6_order_independence_wit :
    ascii.isWhitespace ' ' = true ∧
    (extend_from_text ascii (extend_from_text ascii Bbow.new "Hello world".data)
        "hello there".data =
      extend_from_text ascii Bbow.new
        ("Hello world".data ++ ' ' :: "hello there".data) ∧
    extend_from_text ascii (extend_from_text ascii Bbow.new "Hello world".data)
        "hello there".data =
      extend_from_text ascii (extend_from_text ascii Bbow.new "hello there".data)
        "Hello world".data) :=
  ⟨by decide,
   c6_order_independence ascii Bbow.new "Hello world".data "hello there".data
     ' ' (by decide)⟩

/-- Claim C7: `words()` enumerates exactly the stored keys in strictly
ascending lexicographic order by code point (`ltw`, shown equivalent to
the standard lexicographic order on code-point sequences), and the number
of elements enumerated equals `len()`. -/
theorem c7_words_sorted (M : CharSpec) (ts : List (List Char)) :
    List.Pairwise (fun a b => ltw a b = true) (Bbow.words (buildBbow M ts)) ∧
    (Bbow.words (buildBbow M ts)).length = Bbow.len (buildBbow M ts) ∧
    ∀ a b : List Char, ltw a b = true ↔ List.Lex (· < ·) a b := by
  refine ⟨List.pairwise_map.mpr (sortedB_build M ts), ?_, ltw_iff_lex⟩
  simp [Bbow.words, Bbow.len]

/-- Claim C8: `extend_from_text` is total (the embedding is a total
function): the empty text leaves any bag unchanged, no ingestion removes
entries, and ingesting "" or "123 456 !@#" into a fresh bag leaves
`len() = 0`, `count() = 0`, `is_empty() = true`. -/
theorem c8_total (M : CharSpec) (b : Bbow) (t : List Char) :
    extend_from_text M b [] = b ∧
    Bbow.len b ≤ Bbow.len (extend_from_text M b t) ∧
    (Bbow.len (buildBbow ascii [[]]) = 0 ∧
      Bbow.count (buildBbow ascii [[]]) = 0 ∧
      Bbow.is_empty (buildBbow ascii [[]]) = true) ∧
    (Bbow.len (buildBbow ascii ["123 456 !@#".data]) = 0 ∧
      Bbow.count (buildBbow ascii ["123 456 !@#".data]) = 0 ∧
      Bbow.is_empty (buildBbow ascii ["123 456 !@#".data]) = true) := by
  refine ⟨rfl, ?_, by decide, by decide⟩
  rw [extend_eq_foldBump]
  exact len_foldBump b _

/-- Claim C9: `extend_from_text` only inserts keys or increments counts:
for every sorted bag (the invariant of every reachable bag), every
keyword's `match_count` is monotone under ingestion and every existing key
remains a key. -/
theorem c9_monotone (M : CharSpec) (b : Bbow) (t kw : List Char)
    (hs : SortedB b) :
    match_count M b kw ≤ match_count M (extend_from_text M b t) kw ∧
    ∀ k ∈ Bbow.words b, k ∈ Bbow.words (extend_from_text M b t) := by
  rw [extend_eq_foldBump]
  constructor
  · rw [match_count, match_count]
    by_cases h : is_word M kw = true
    · rw [if_pos h, if_pos h, lookupW_foldBump hs]
      omega
    · rw [if_neg h, if_neg h]
  · intro k hk
    exact (mem_words_foldBump b _ k).mpr (Or.inl hk)

theorem c9_monotone_wit :
    SortedB (buildBbow ascii ["a b".data]) ∧
    match_count ascii (buildBbow ascii ["a b".data]) "b".data ≤
      match_count ascii
        (extend_from_text ascii (buildBbow ascii ["a b".data]) "b c".data)
        "b".data :=
  ⟨by decide,
   (c9_monotone ascii (buildBbow ascii ["a b".data]) "b c".data "b".data
     (by decide)).1⟩

/-- Claim C10: in every reachable bag all stored values are at least 1,
hence `count() ≥ len()`, with equality exactly when every stored word has
occurred once (every value is 1). -/
theorem c10_values_positive (M : CharSpec) (ts : List (List Char)) :
    (∀ q ∈ buildBbow M ts, 1 ≤ q.2) ∧
    Bbow.len (buildBbow M ts) ≤ Bbow.count (buildBbow M ts) ∧
    (Bbow.count (buildBbow M ts) = Bbow.len (buildBbow M ts) ↔
      ∀ q ∈ buildBbow M ts, q.2 = 1) := by
  have hp : ∀ q ∈ buildBbow M ts, 1 ≤ q.2 :=
    build_invariant (fun b => ∀ q ∈ b, 1 ≤ q.2) M
      (fun q hq => absurd hq (List.not_mem_nil q))
      (fun b t hb => by rw [extend_eq_foldBump]; exact pos_foldBump hb _) ts
  have hl : ∀ v ∈ (buildBbow M ts).map Prod.snd, 1 ≤ v := by
    intro v hv
    obtain ⟨q, hq, rfl⟩ := List.mem_map.mp hv
    exact hp q hq
  obtain ⟨h1, h2⟩ := sum_length_aux _ hl
  refine ⟨hp, ?_, ?_⟩
  · simpa [Bbow.len, Bbow.count, List.length_map] using h1
  · simp only [Bbow.count, Bbow.len]
    constructor
    · intro he q hq
      have hmap : (List.map Prod.snd (buildBbow M ts)).sum =
          (List.map Prod.snd (buildBbow M ts)).length := by
        rw [List.length_map]
        exact he
      exact h2.mp hmap q.2 (List.mem_map_of_mem _ hq)
    · intro hall
      have hmap := h2.mpr fun v hv => by
        obtain ⟨q, hq, rfl⟩ := List.mem_map.mp hv
        exact hall q hq
      rw [hmap, List.length_map]

theorem c10_values_positive_wit :
    Bbow.len (buildBbow ascii ["a a b".data]) ≤
      Bbow.count (buildBbow ascii ["a a b".data]) :=
  (c10_values_positive ascii ["a a b".data]).2.1
